import Mathlib

/-!
Verification of the hierarchy-resolution and signal-flattening engine of the
SystemVerilog assertion-interface generator (`if_gen.py`).

The Lean definitions below are a shallow embedding of the Python source:

* Python tuples `(match, path, module_name)` become the structure `SpySignal`;
  the regex-match dictionaries with keys `direction`/`type`/`width`/`name`
  become the structure `SignalDecl` (registers carry `direction := none`,
  matching the absence of a `direction` group in the register regex).
* Python's `sorted(xs, key=...)` is a stable sort by a string key.  It is
  embedded as `pySorted`, a stable insertion sort; stability by a fixed key
  determines the output uniquely (proved below as `sortedByKey_filter_ext`),
  so any stable sorting algorithm — in particular CPython's timsort — computes
  the same list.  String comparison follows Python: lexicographic by code
  point (`strLt`).
* The unbounded recursion of `get_all_registers` / `get_all_ports` is embedded
  with an explicit recursion-depth budget (`fuel`); exhausting the budget
  yields `FlatErr.outOfFuel`, so "the traversal never finishes at any depth"
  is expressible.  Passing `None` into the recursive call (the Python
  `AttributeError` crash when an instantiated module is not in the registry)
  is embedded as `FlatErr.noneModule`.
* `sys.exit(1)` in `find_top_module` is embedded as `Except.error` with the
  corresponding error tag.
* The instantiation-finding regex of `ModuleInfo.find_instances` is embedded
  as an explicit backtracking scanner (`scanInst`) implementing exactly the
  pattern `\b(name1|...|namek)\b\s+(?:\#\(.*?\))\s*(\w+)\s*\(` with DOTALL
  semantics: alternatives tried in list order, lazy `.*?` expanded to
  successive `)` positions, leftmost match first, scanning resuming after
  each match.  `\w` and `\s` are modelled at ASCII level.
-/

/-! ## Strings: Python code-point comparison and path helpers -/

/-- Lexicographic comparison of character lists by code point, as Python
compares strings. -/
def charsLt : List Char → List Char → Bool
  | _, [] => false
  | [], _ :: _ => true
  | a :: as, b :: bs => if a < b then true else if b < a then false else charsLt as bs

/-- Python string `<`. -/
def strLt (a b : String) : Bool := charsLt a.data b.data

/-- Python `path.count('.')`. -/
def countDots (s : String) : Nat := s.data.count '.'

/-- Python `path[10:].replace('.', '_')`: drop the fixed-width prefix
`` `PATH_TOP. `` (10 code points) and flatten the remaining separators. -/
def flattenPath (s : String) : String :=
  String.mk ((s.data.drop 10).map (fun c => if c = '.' then '_' else c))

/-! ## Stable sort by string key (Python `sorted(xs, key=...)`) -/

/-- Insert `a` in front of the first element whose key is not strictly below
`a`'s key.  Elements equal on the key therefore stay behind `a`, which makes
the sort stable. -/
def stInsert {α : Type} (key : α → String) (a : α) : List α → List α
  | [] => [a]
  | b :: t => if strLt (key b) (key a) then b :: stInsert key a t else a :: b :: t

/-- Stable sort by string key; embeds Python's `sorted(xs, key=...)`. -/
def pySorted {α : Type} (key : α → String) : List α → List α
  | [] => []
  | a :: t => stInsert key a (pySorted key t)

/-! ## Data model -/

/-- One parsed declaration: the named groups of the port / register regexes
(for a register match there is no `direction` group, embedded as `none`),
and also the dictionaries synthesized by the conflict resolvers. -/
structure SignalDecl where
  direction : Option String
  type : String
  width : Option String
  name : String
deriving DecidableEq

/-- One flattened signal: the Python tuple `(declaration, path, module_name)`
appended by `get_all_registers` / `get_all_ports`. -/
structure SpySignal where
  decl : SignalDecl
  path : String
  module_name : String
deriving DecidableEq

/-- The fields of the Python class `ModuleInfo` used by the hierarchy engine
(`sv_code`, `module_match` and `param_matches` play no role in it). -/
structure ModuleInfo where
  module_name : String
  port_matches : List SignalDecl
  regs_matches : List SignalDecl
  instances : List (String × String)
deriving DecidableEq

deriving instance DecidableEq for Except

/-! ## Top-module resolution -/

/-- `exit(1)` outcomes of `find_top_module`. -/
inductive TopError
  | top_module_not_found
  | ambiguous_top_module
deriving DecidableEq

/-- `get_module_info`: first registry entry with the given name, else `None`. -/
def get_module_info (module_name : String) (module_infos : List ModuleInfo) :
    Option ModuleInfo :=
  module_infos.find? (fun m => m.module_name = module_name)

/-- `is_instantiated`: does any instance edge of any module target this name? -/
def is_instantiated (module_name : String) (module_infos : List ModuleInfo) : Bool :=
  module_infos.any (fun m => m.instances.any (fun inst => inst.1 = module_name))

/-- The `0 / 1 / many` case split on the collected `potential_tops` list of
`find_top_module`: `exit(1)` with "Top module wasn't found", return the
single candidate, or `exit(1)` with "More than one potential top module". -/
def topFromCandidates (potential_tops : List ModuleInfo) : Except TopError ModuleInfo :=
  match potential_tops with
  | [] => .error .top_module_not_found
  | [t] => .ok t
  | _ => .error .ambiguous_top_module

/-- `find_top_module`.  The Python loop for an explicit override keeps the
last registry entry carrying the override name (assignment without `break`);
an override that resolves to nothing falls through to inference, exactly as
in the source.  A single-module registry is returned as is; otherwise the
modules with at least one outgoing edge and no incoming edge are collected
in registry order and handed to the `0 / 1 / many` case split. -/
def find_top_module (top_module_name : String) (module_infos : List ModuleInfo) :
    Except TopError ModuleInfo :=
  let explicitTop : Option ModuleInfo :=
    if top_module_name = "" then none
    else module_infos.foldl
      (fun acc m => if m.module_name = top_module_name then some m else acc) none
  match explicitTop with
  | some t => .ok t
  | none =>
    match module_infos with
    | [m] => .ok m
    | _ =>
      topFromCandidates (module_infos.filter
        (fun m => !m.instances.isEmpty && !is_instantiated m.module_name module_infos))

/-! ## Hierarchy flattening -/

/-- Failure of the recursive walk: `outOfFuel` embeds non-termination at the
given recursion budget (Python has no cycle guard and would recurse until
`RecursionError`); `noneModule` embeds the `AttributeError` raised when
`get_module_info` returns `None` and the `None` is dereferenced by the
recursive call. -/
inductive FlatErr
  | outOfFuel
  | noneModule
deriving DecidableEq

/-- The instance loop shared verbatim by `get_all_registers` and
`get_all_ports`: resolve each child by name and splice in the recursive
result (`f`), in stored edge order. -/
def garInsts (f : ModuleInfo → String → Except FlatErr (List SpySignal))
    (module_infos : List ModuleInfo) :
    List (String × String) → String → Except FlatErr (List SpySignal)
  | [], _ => .ok []
  | inst :: rest, path =>
    match get_module_info inst.1 module_infos with
    | none => .error .noneModule
    | some cm =>
      match f cm (path ++ "." ++ inst.2) with
      | .error e => .error e
      | .ok sub =>
        match garInsts f module_infos rest path with
        | .error e => .error e
        | .ok tail => .ok (sub ++ tail)

/-- The recursive walk of `get_all_registers` / `get_all_ports`, parameterized
by which declaration list of a module is emitted (the two Python functions are
verbatim copies apart from `regs_matches` vs `port_matches`).  Own
declarations are emitted with `path + "." + name`, instance subtrees are
appended in edge order, and the whole level is re-sorted by owner module name
(`sorted(spy_signals, key=lambda x: x[2])`).  Defined by `Nat.rec` on the
fuel so that concrete runs reduce definitionally. -/
def flattenSigs (select : ModuleInfo → List SignalDecl) :
    Nat → ModuleInfo → String → List ModuleInfo → Except FlatErr (List SpySignal) :=
  Nat.rec (motive := fun _ => ModuleInfo → String → List ModuleInfo →
      Except FlatErr (List SpySignal))
    (fun _ _ _ => .error .outOfFuel)
    (fun _fuel ih m path module_infos =>
      match garInsts (fun cm p => ih cm p module_infos) module_infos m.instances path with
      | .error e => .error e
      | .ok rest =>
        .ok (pySorted (fun s => s.module_name)
          ((select m).map (fun d => ⟨d, path ++ "." ++ d.name, m.module_name⟩) ++ rest)))

/-- `get_all_registers(module, path, module_infos)` at recursion budget `fuel`. -/
def get_all_registers (fuel : Nat) (module : ModuleInfo) (path : String)
    (module_infos : List ModuleInfo) : Except FlatErr (List SpySignal) :=
  flattenSigs (fun m => m.regs_matches) fuel module path module_infos

/-- `get_all_ports(module, path, module_infos)` at recursion budget `fuel`. -/
def get_all_ports (fuel : Nat) (module : ModuleInfo) (path : String)
    (module_infos : List ModuleInfo) : Except FlatErr (List SpySignal) :=
  flattenSigs (fun m => m.port_matches) fuel module path module_infos

/-- Reference traversal following the words of the specification: the same
depth-first walk but with a single sort left to be applied after full
traversal, i.e. the raw depth-first emission order.  Used to compare the
source's level-by-level sorting against the specification's
sort-once-at-the-end description. -/
def specDFSigs (select : ModuleInfo → List SignalDecl) :
    Nat → ModuleInfo → String → List ModuleInfo → Except FlatErr (List SpySignal) :=
  Nat.rec (motive := fun _ => ModuleInfo → String → List ModuleInfo →
      Except FlatErr (List SpySignal))
    (fun _ _ _ => .error .outOfFuel)
    (fun _fuel ih m path module_infos =>
      match garInsts (fun cm p => ih cm p module_infos) module_infos m.instances path with
      | .error e => .error e
      | .ok rest =>
        .ok ((select m).map (fun d => ⟨d, path ++ "." ++ d.name, m.module_name⟩) ++ rest))

/-- Depth-first register emission, unsorted (specification reference). -/
def specDF_registers (fuel : Nat) (module : ModuleInfo) (path : String)
    (module_infos : List ModuleInfo) : Except FlatErr (List SpySignal) :=
  specDFSigs (fun m => m.regs_matches) fuel module path module_infos

/-- Depth-first port emission, unsorted (specification reference). -/
def specDF_ports (fuel : Nat) (module : ModuleInfo) (path : String)
    (module_infos : List ModuleInfo) : Except FlatErr (List SpySignal) :=
  specDFSigs (fun m => m.port_matches) fuel module path module_infos

/-! ## Register conflict resolution -/

/-- The renamed dictionary built by `resolve_conflicts` for a duplicated
register name: `direction` is set to `None`, the name becomes the flattened
path. -/
def renameReg (sig : SpySignal) : SpySignal :=
  { decl := { direction := none, type := sig.decl.type, width := sig.decl.width,
              name := flattenPath sig.path },
    path := sig.path, module_name := sig.module_name }

/-- `resolve_conflicts`: names occurring more than once (membership in the
`Counter`-derived `duplicates` list) are replaced by the flattened path;
unique names pass through; the result is re-sorted by module name. -/
def resolve_conflicts (spy_signals : List SpySignal) : List SpySignal :=
  let reg_names := spy_signals.map (fun t => t.decl.name)
  let result := spy_signals.map (fun sig =>
    if 1 < reg_names.count sig.decl.name then renameReg sig else sig)
  pySorted (fun x => x.module_name) result

/-! ## Port conflict resolution -/

/-- The key-collection loop of the grouping dict `port_groups`: a name is
appended when not seen before (`if port_name not in port_groups`), so the
keys come out in insertion order. -/
def firstKeysAux : List String → List String → List String
  | _, [] => []
  | seen, n :: t =>
    if n ∈ seen then firstKeysAux seen t else n :: firstKeysAux (n :: seen) t

/-- Keys of the Python grouping dict `port_groups` in insertion order:
each name at its first occurrence. -/
def firstKeys (names : List String) : List String := firstKeysAux [] names

/-- The member list of one group of `port_groups`: all records with the given
name, in input order. -/
def groupOf (spy_signals : List SpySignal) (n : String) : List SpySignal :=
  spy_signals.filter (fun s => s.decl.name = n)

/-- Python `min(ports, key=lambda x: len(x[1]))` over `first :: rest`:
the first element of minimal path length in characters. -/
def pyMinByPathLen (first : SpySignal) (rest : List SpySignal) : SpySignal :=
  rest.foldl (fun acc p => if p.path.length < acc.path.length then p else acc) first

/-- The renamed dictionary built by `resolve_port_conflicts` for an output
port of a conflicting group: direction/type/width are kept, the name becomes
the flattened path. -/
def renamePort (port : SpySignal) : SpySignal :=
  { decl := { direction := port.decl.direction, type := port.decl.type,
              width := port.decl.width, name := flattenPath port.path },
    path := port.path, module_name := port.module_name }

/-- The body of the `for port_name, ports in port_groups.items()` loop of
`resolve_port_conflicts`: a singleton group is kept iff its path has more
than one dot; a conflicting group keeps its output members of path depth
above one, renamed, if any output exists, and otherwise at most the
shortest-path member.  (Groups produced by the grouping pass are never
empty; the `[]` equation is unreachable.) -/
def processGroup : List SpySignal → List SpySignal
  | [] => []
  | [p] => if 1 < countDots p.path then [p] else []
  | p :: q :: rest =>
    if ((p :: q :: rest).filter (fun x => x.decl.direction = some "output")).isEmpty then
      if 1 < countDots (pyMinByPathLen p (q :: rest)).path then
        [pyMinByPathLen p (q :: rest)]
      else []
    else
      ((p :: q :: rest).filter (fun x => x.decl.direction = some "output")).filterMap
        (fun port => if countDots port.path ≤ 1 then none else some (renamePort port))

/-- `resolve_port_conflicts`: group by name in insertion order, process each
group, re-sort by module name. -/
def resolve_port_conflicts (spy_signals : List SpySignal) : List SpySignal :=
  let keys := firstKeys (spy_signals.map (fun s => s.decl.name))
  let result := keys.flatMap (fun n => processGroup (groupOf spy_signals n))
  pySorted (fun x => x.module_name) result

/-! ## Instance discovery (`ModuleInfo.find_instances`) -/

/-- ASCII model of the regex class `\w`. -/
def isWordChar (c : Char) : Bool := c.isAlphanum || c = '_'

/-- ASCII model of the regex class `\s`. -/
def pySpaceChar (c : Char) : Bool :=
  c = ' ' || c = '\t' || c = '\n' || c = '\r' || c = '\x0b' || c = '\x0c'

/-- Match a literal character sequence, returning the remainder. -/
def matchLit : List Char → List Char → Option (List Char)
  | [], s => some s
  | _ :: _, [] => none
  | c :: cs, d :: ds => if c = d then matchLit cs ds else none

/-- `\s*` (greedy; a shorter run can never help since the pattern continues
with a non-space requirement). -/
def dropSpaces (s : List Char) : List Char := s.dropWhile pySpaceChar

/-- `\s+`. -/
def dropSpacesOne (s : List Char) : Option (List Char) :=
  match s with
  | [] => none
  | c :: rest => if pySpaceChar c then some (dropSpaces rest) else none

/-- The continuation `\s*(\w+)\s*\(` tried after a candidate closing
parenthesis; yields the alias and the remainder after the final `(`.
A non-maximal `\w+` run can never succeed (the following character would be
a word character, matching neither `\s*` nor `\(`), so only the maximal run
is tried. -/
def aliasAfterClose (s : List Char) : Option (String × List Char) :=
  let r1 := dropSpaces s
  let w := r1.takeWhile isWordChar
  let r2 := r1.dropWhile isWordChar
  if w.isEmpty then none
  else
    match dropSpaces r2 with
    | '(' :: r3 => some (String.mk w, r3)
    | _ => none

/-- Backtracking search for `.*?\)` followed by the alias continuation: the
lazy quantifier tries each `)` from left to right and extends `.*` past it
when the continuation fails (DOTALL: every character is admissible in `.*`). -/
def closeParenScan : List Char → Option (String × List Char)
  | [] => none
  | c :: rest =>
    if c = ')' then
      match aliasAfterClose rest with
      | some r => some r
      | none => closeParenScan rest
    else closeParenScan rest

/-- One alternative of the name alternation tried at the current position:
the literal name, its trailing `\b` (subsumed by the mandatory `\s+`: a word
character directly after the name fails both), `\s+`, the literal `#(`, and
the lazy parenthesized part with the alias continuation. -/
def tryOneName (n : String) (s : List Char) : Option (String × List Char) :=
  match matchLit n.data s with
  | none => none
  | some r0 =>
    match dropSpacesOne r0 with
    | none => none
    | some r1 =>
      match r1 with
      | '#' :: '(' :: r2 => closeParenScan r2
      | _ => none

/-- The alternation `(name1|...|namek)`: alternatives tried in list order,
the first one admitting a full match wins (Python's leftmost-alternative
preference). -/
def tryNamesAt : List String → List Char → Option (String × String × List Char)
  | [], _ => none
  | n :: ns, s =>
    match tryOneName n s with
    | some r => some (n, r.1, r.2)
    | none => tryNamesAt ns s

/-- The `re.finditer` scan: positions tried left to right; a match is
attempted only at a `\b` boundary (module names start with a word character,
so the boundary is exactly "previous character is not a word character");
scanning resumes after the end of each match (whose last character `(` is
not a word character).  The fuel starts at `length + 1` and every step
consumes at least one character, so it never runs out. -/
def scanInst : Nat → List String → Bool → List Char → List (String × String)
  | 0, _, _, _ => []
  | _ + 1, _, _, [] => []
  | fuel + 1, names, prevWord, c :: rest =>
    match (if prevWord then none else tryNamesAt names (c :: rest)) with
    | some (n, al, r) => (n, al) :: scanInst fuel names false r
    | none => scanInst fuel names (isWordChar c) rest

/-- `ModuleInfo.find_instances`: the `(child_module_name, instance_alias)`
pairs appended for a module body, given the global module-name list.  With an
empty name list the Python guard `if self.module_match and module_names`
skips the scan. -/
def find_instances (module_names : List String) (body : String) :
    List (String × String) :=
  if module_names.isEmpty then []
  else scanInst (body.data.length + 1) module_names false body.data

/-! ## Concrete designs used as counterexamples and witnesses -/

/-- A register declaration named `nm`. -/
def regDecl (nm : String) : SignalDecl := ⟨none, "logic", none, nm⟩

/-- A port declaration with direction `dir` named `nm`. -/
def portDecl (dir nm : String) : SignalDecl := ⟨some dir, "logic", none, nm⟩

/-- Leaf module `ma` with register `b_s`. -/
def c1ma : ModuleInfo := ⟨"ma", [], [regDecl "b_s"], []⟩

/-- Leaf module `mx` with register `b_s`. -/
def c1mx : ModuleInfo := ⟨"mx", [], [regDecl "b_s"], []⟩

/-- Top module with its own register `a_b_s`, instantiating `ma` as `a` and
`mx` as `x`. -/
def c1top : ModuleInfo := ⟨"top", [], [regDecl "a_b_s"], [("ma", "a"), ("mx", "x")]⟩

/-- Registry of the duplicate-collision design. -/
def c1mods : List ModuleInfo := [c1ma, c1mx, c1top]

/-- Its flattened register list: the renaming of the duplicated `b_s` under
alias `a` collides with the untouched unique register `a_b_s`. -/
def c1flat : List SpySignal :=
  [⟨regDecl "b_s", "`PATH_TOP.a.b_s", "ma"⟩,
   ⟨regDecl "b_s", "`PATH_TOP.x.b_s", "mx"⟩,
   ⟨regDecl "a_b_s", "`PATH_TOP.a_b_s", "top"⟩]

/-- The same design's depth-first register emission, unsorted (own
declarations of `top` first, then the subtrees in edge order). -/
def c1df : List SpySignal :=
  [⟨regDecl "a_b_s", "`PATH_TOP.a_b_s", "top"⟩,
   ⟨regDecl "b_s", "`PATH_TOP.a.b_s", "ma"⟩,
   ⟨regDecl "b_s", "`PATH_TOP.x.b_s", "mx"⟩]

/-- Module `A` of the two-module cycle. -/
def c2A : ModuleInfo :=
  ⟨"A", [portDecl "input" "pa"], [regDecl "ra_s"], [("B", "u_b")]⟩

/-- Module `B` of the two-module cycle. -/
def c2B : ModuleInfo := ⟨"B", [], [], [("A", "u_a")]⟩

/-- Cyclic registry: `A` instantiates `B` and `B` instantiates `A`. -/
def c2mods : List ModuleInfo := [c2A, c2B]

/-- A module instantiating a child absent from the registry. -/
def c4A : ModuleInfo := ⟨"A", [], [regDecl "r_s"], [("Missing", "u1")]⟩

/-- Module with an output port `a` and an input port `b`. -/
def c7M : ModuleInfo := ⟨"M", [portDecl "output" "a", portDecl "input" "b"], [], []⟩

/-- Top module instantiating `M` twice. -/
def c7T : ModuleInfo := ⟨"T", [], [], [("M", "u1"), ("M", "u2")]⟩

/-- Registry of the port-ordering design. -/
def c7mods : List ModuleInfo := [c7M, c7T]

/-- Flattened (and depth-first) port list of the port-ordering design. -/
def c7flat : List SpySignal :=
  [⟨portDecl "output" "a", "`PATH_TOP.u1.a", "M"⟩,
   ⟨portDecl "input" "b", "`PATH_TOP.u1.b", "M"⟩,
   ⟨portDecl "output" "a", "`PATH_TOP.u2.a", "M"⟩,
   ⟨portDecl "input" "b", "`PATH_TOP.u2.b", "M"⟩]

/-- Leaf module `mq` with register `a_b_s`. -/
def c8mq : ModuleInfo := ⟨"mq", [], [regDecl "a_b_s"], []⟩

/-- Top module instantiating `mq` as `q`, `ma` as `a`, `mx` as `x`. -/
def c8top : ModuleInfo := ⟨"top", [], [], [("mq", "q"), ("ma", "a"), ("mx", "x")]⟩

/-- Registry of the non-idempotence design. -/
def c8mods : List ModuleInfo := [c8mq, c1ma, c1mx, c8top]

/-- Its flattened register list: the unique `a_b_s` at depth 2 collides with
the renaming of the duplicated `b_s`, so a second resolver pass renames it. -/
def c8flat : List SpySignal :=
  [⟨regDecl "b_s", "`PATH_TOP.a.b_s", "ma"⟩,
   ⟨regDecl "a_b_s", "`PATH_TOP.q.a_b_s", "mq"⟩,
   ⟨regDecl "b_s", "`PATH_TOP.x.b_s", "mx"⟩]

/-- Witness registry for top-module inference: `A` instantiates `B`. -/
def w3A : ModuleInfo := ⟨"A", [], [], [("B", "u1")]⟩

/-- Leaf module `B` of the witness registry. -/
def w3B : ModuleInfo := ⟨"B", [], [], []⟩

/-- Witness registry for top-module inference. -/
def w3mods : List ModuleInfo := [w3A, w3B]

/-- Witness port list with a conflicting group containing an output. -/
def w5sigs : List SpySignal :=
  [⟨portDecl "output" "p", "`PATH_TOP.u1.p", "M"⟩,
   ⟨portDecl "input" "p", "`PATH_TOP.u2.q.p", "N"⟩]

/-- Witness port list with a unique deep port. -/
def w6sigs : List SpySignal := [⟨portDecl "input" "clk", "`PATH_TOP.u1.clk", "M"⟩]

/-- Witness singleton register list (already conflict-free). -/
def w8regs : List SpySignal := [⟨regDecl "r_s", "`PATH_TOP.u.r_s", "M"⟩]

/-- Witness singleton port list (already conflict-free). -/
def w8ports : List SpySignal := [⟨portDecl "input" "p", "`PATH_TOP.u.p", "M"⟩]

/-- Witness module body containing one parameterized instantiation. -/
def w9body : String := "logic x_s; B #(.W(W)) u1 (clk);"

/-- Witness module instantiating `B`. -/
def w9A : ModuleInfo := ⟨"A", [], [regDecl "r_s"], [("B", "u1")]⟩

/-- Witness leaf module `B`. -/
def w9B : ModuleInfo := ⟨"B", [], [], []⟩

/-- Witness registry whose instance edges all resolve. -/
def w9mods : List ModuleInfo := [w9A, w9B]

/-- Witness port list: an all-input group tied on path length. -/
def w10sigs : List SpySignal :=
  [⟨portDecl "input" "nn", "`PATH_TOP.aa.nn", "M"⟩,
   ⟨portDecl "input" "nn", "`PATH_TOP.bb.nn", "N"⟩]

/-- Sortedness by a string key: no later element has a strictly smaller key. -/
def sortedByKey {α : Type} (key : α → String) (l : List α) : Prop :=
  l.Pairwise (fun a b => strLt (key b) (key a) = false)

/-! # Theorems -/


/-! ## Order facts about the code-point comparison -/

theorem charsLt_nil_right (x : List Char) : charsLt x [] = false := by
  cases x <;> rfl

theorem charsLt_cons (a b : Char) (as bs : List Char) :
    charsLt (a :: as) (b :: bs) =
      if a < b then true else if b < a then false else charsLt as bs := rfl

theorem charsLt_irrefl (x : List Char) : charsLt x x = false := by
  induction x with
  | nil => rfl
  | cons a as ih => rw [charsLt_cons, if_neg (lt_irrefl a), if_neg (lt_irrefl a), ih]

theorem charsLt_trans :
    ∀ {x y z : List Char}, charsLt x y = true → charsLt y z = true →
      charsLt x z = true := by
  intro x
  induction x with
  | nil =>
    intro y z hxy hyz
    cases y with
    | nil => rw [charsLt_nil_right] at hxy; exact absurd hxy (by simp)
    | cons b bs =>
      cases z with
      | nil => rw [charsLt_nil_right] at hyz; exact absurd hyz (by simp)
      | cons c cs => rfl
  | cons a as ih =>
    intro y z hxy hyz
    cases y with
    | nil => rw [charsLt_nil_right] at hxy; exact absurd hxy (by simp)
    | cons b bs =>
      cases z with
      | nil => rw [charsLt_nil_right] at hyz; exact absurd hyz (by simp)
      | cons c cs =>
        rw [charsLt_cons] at hxy hyz ⊢
        rcases lt_trichotomy a b with hab | hab | hab
        · rcases lt_trichotomy b c with hbc | hbc | hbc
          · rw [if_pos (lt_trans hab hbc)]
          · subst hbc; rw [if_pos hab]
          · rw [if_neg (asymm hbc), if_pos hbc] at hyz
            exact absurd hyz (by simp)
        · subst hab
          rcases lt_trichotomy a c with hbc | hbc | hbc
          · rw [if_pos hbc]
          · subst hbc
            rw [if_neg (lt_irrefl a), if_neg (lt_irrefl a)] at hxy hyz ⊢
            exact ih hxy hyz
          · rw [if_neg (asymm hbc), if_pos hbc] at hyz
            exact absurd hyz (by simp)
        · rw [if_neg (asymm hab), if_pos hab] at hxy
          exact absurd hxy (by simp)

theorem charsLt_trichotomy :
    ∀ (x y : List Char), charsLt x y = true ∨ x = y ∨ charsLt y x = true := by
  intro x
  induction x with
  | nil =>
    intro y
    cases y with
    | nil => exact Or.inr (Or.inl rfl)
    | cons b bs => exact Or.inl rfl
  | cons a as ih =>
    intro y
    cases y with
    | nil => exact Or.inr (Or.inr rfl)
    | cons b bs =>
      rcases lt_trichotomy a b with hab | hab | hab
      · exact Or.inl (by rw [charsLt_cons, if_pos hab])
      · subst hab
        rcases ih bs with h | h | h
        · exact Or.inl
            (by rw [charsLt_cons, if_neg (lt_irrefl a), if_neg (lt_irrefl a)]; exact h)
        · exact Or.inr (Or.inl (by rw [h]))
        · exact Or.inr (Or.inr
            (by rw [charsLt_cons, if_neg (lt_irrefl a), if_neg (lt_irrefl a)]; exact h))
      · exact Or.inr (Or.inr (by rw [charsLt_cons, if_pos hab]))

theorem charsLt_asymm {x y : List Char} (h : charsLt x y = true) :
    charsLt y x = false := by
  cases hyx : charsLt y x with
  | false => rfl
  | true =>
    have := charsLt_trans h hyx
    rw [charsLt_irrefl] at this
    exact absurd this (by simp)

theorem strLt_false_of_true {x y : String} (h : strLt x y = true) :
    strLt y x = false := charsLt_asymm h

theorem strLt_le_trans {x y z : String}
    (h1 : strLt y x = false) (h2 : strLt z y = false) : strLt z x = false := by
  unfold strLt at h1 h2 ⊢
  cases hzx : charsLt z.data x.data with
  | false => rfl
  | true =>
    rcases charsLt_trichotomy y.data z.data with h | h | h
    · have := charsLt_trans h hzx
      rw [h1] at this
      exact absurd this (by simp)
    · rw [h, hzx] at h1
      exact absurd h1 (by simp)
    · rw [h2] at h
      exact absurd h (by simp)

theorem strLt_antisymm {x y : String}
    (h1 : strLt x y = false) (h2 : strLt y x = false) : x = y := by
  rcases charsLt_trichotomy x.data y.data with h | h | h
  · rw [strLt, h] at h1; exact absurd h1 (by simp)
  · exact congrArg String.mk h
  · rw [strLt, h] at h2; exact absurd h2 (by simp)

/-! ## The stable sort `pySorted` -/

theorem stInsert_cons {α : Type} (key : α → String) (a b : α) (t : List α) :
    stInsert key a (b :: t) =
      if strLt (key b) (key a) = true then b :: stInsert key a t
      else a :: b :: t := rfl

theorem stInsert_perm {α : Type} (key : α → String) (a : α) (l : List α) :
    (stInsert key a l).Perm (a :: l) := by
  induction l with
  | nil => rfl
  | cons b t ih =>
    rw [stInsert_cons]
    cases h : strLt (key b) (key a) with
    | true =>
      rw [if_pos rfl]
      exact ((ih.cons b).trans (List.Perm.swap a b t))
    | false =>
      rw [if_neg (by simp)]

theorem pySorted_perm {α : Type} (key : α → String) (l : List α) :
    (pySorted key l).Perm l := by
  induction l with
  | nil => rfl
  | cons a t ih => exact (stInsert_perm key a (pySorted key t)).trans (ih.cons a)

theorem mem_pySorted {α : Type} (key : α → String) (l : List α) (x : α) :
    x ∈ pySorted key l ↔ x ∈ l := (pySorted_perm key l).mem_iff

theorem length_pySorted {α : Type} (key : α → String) (l : List α) :
    (pySorted key l).length = l.length := (pySorted_perm key l).length_eq

theorem stInsert_sorted {α : Type} (key : α → String) (a : α) (l : List α)
    (h : sortedByKey key l) : sortedByKey key (stInsert key a l) := by
  induction l with
  | nil => exact List.pairwise_singleton _ a
  | cons b t ih =>
    rcases List.pairwise_cons.mp h with ⟨hb, ht⟩
    rw [stInsert_cons]
    cases hba : strLt (key b) (key a) with
    | true =>
      rw [if_pos rfl]
      refine List.pairwise_cons.mpr ⟨?_, ih ht⟩
      intro x hx
      rcases List.mem_cons.mp ((stInsert_perm key a t).mem_iff.mp hx) with hx | hx
      · rw [hx]; exact strLt_false_of_true hba
      · exact hb x hx
    | false =>
      rw [if_neg (by simp)]
      refine List.pairwise_cons.mpr ⟨?_, h⟩
      intro x hx
      rcases List.mem_cons.mp hx with hx | hx
      · rw [hx]; exact hba
      · exact strLt_le_trans hba (hb x hx)

theorem pySorted_sorted {α : Type} (key : α → String) (l : List α) :
    sortedByKey key (pySorted key l) := by
  induction l with
  | nil => exact List.Pairwise.nil
  | cons a t ih => exact stInsert_sorted key a (pySorted key t) ih

theorem stInsert_filter {α : Type} (key : α → String) (a : α) (l : List α)
    (s : String) :
    (stInsert key a l).filter (fun x => key x = s) =
      if key a = s then a :: l.filter (fun x => key x = s)
      else l.filter (fun x => key x = s) := by
  induction l with
  | nil =>
    by_cases h : key a = s <;> simp [stInsert, List.filter_cons, h]
  | cons b t ih =>
    rw [stInsert_cons]
    cases hba : strLt (key b) (key a) with
    | true =>
      rw [if_pos rfl]
      by_cases hbs : key b = s
      · by_cases has : key a = s
        · exfalso
          have : key b = key a := hbs.trans has.symm
          rw [this, strLt, charsLt_irrefl] at hba
          exact absurd hba (by simp)
        · simp [List.filter_cons, hbs, has, ih]
      · simp [List.filter_cons, hbs, ih]
    | false =>
      rw [if_neg (by simp)]
      by_cases has : key a = s <;> simp [List.filter_cons, has]

theorem pySorted_filter {α : Type} (key : α → String) (l : List α) (s : String) :
    (pySorted key l).filter (fun x => key x = s) = l.filter (fun x => key x = s) := by
  induction l with
  | nil => rfl
  | cons a t ih =>
    show (stInsert key a (pySorted key t)).filter _ = _
    rw [stInsert_filter, ih]
    by_cases has : key a = s <;> simp [List.filter_cons, has]

theorem sortedByKey_filter_ext {α : Type} (key : α → String) :
    ∀ (l₁ l₂ : List α), sortedByKey key l₁ → sortedByKey key l₂ →
      (∀ s, l₁.filter (fun x => key x = s) = l₂.filter (fun x => key x = s)) →
      l₁ = l₂ := by
  intro l₁
  induction l₁ with
  | nil =>
    intro l₂ _ _ hf
    cases l₂ with
    | nil => rfl
    | cons b t =>
      have := hf (key b)
      simp [List.filter_cons] at this
  | cons a t₁ ih =>
    intro l₂ h₁ h₂ hf
    cases l₂ with
    | nil =>
      have := hf (key a)
      simp [List.filter_cons] at this
    | cons b t₂ =>
      rcases List.pairwise_cons.mp h₁ with ⟨ha, ht₁⟩
      rcases List.pairwise_cons.mp h₂ with ⟨hb, ht₂⟩
      have hmem1 : a ∈ (b :: t₂).filter (fun x => key x = key a) := by
        rw [← hf (key a)]
        simp [List.filter_cons]
      have hmem2 : b ∈ (a :: t₁).filter (fun x => key x = key b) := by
        rw [hf (key b)]
        simp [List.filter_cons]
      have hkey : key a = key b := by
        rcases List.mem_cons.mp (List.mem_filter.mp hmem1).1 with hab | hat
        · rw [hab]
        · rcases List.mem_cons.mp (List.mem_filter.mp hmem2).1 with hba | hbt
          · rw [hba]
          · exact strLt_antisymm (hb a hat) (ha b hbt)
      have e1 : (a :: t₁).filter (fun x => key x = key a) =
          a :: t₁.filter (fun x => key x = key a) := by
        simp [List.filter_cons]
      have e2 : (b :: t₂).filter (fun x => key x = key a) =
          b :: t₂.filter (fun x => key x = key a) := by
        simp [List.filter_cons, ← hkey]
      have hhead : a :: t₁.filter (fun x => key x = key a) =
          b :: t₂.filter (fun x => key x = key a) := by
        rw [← e1, ← e2]; exact hf (key a)
      have hab : a = b := by injection hhead
      have htails : t₁.filter (fun x => key x = key a) =
          t₂.filter (fun x => key x = key a) := by injection hhead
      refine congrArg₂ (· :: ·) hab (ih t₂ ht₁ ht₂ ?_)
      intro s
      by_cases hs : s = key a
      · rw [hs]; exact htails
      · have hstep := hf s
        have hfa : ¬ (key a = s) := fun h => hs h.symm
        have hfb : ¬ (key b = s) := by rw [← hkey]; exact hfa
        simpa [List.filter_cons, hfa, hfb] using hstep

theorem pySorted_congr {α : Type} (key : α → String) (l₁ l₂ : List α)
    (hf : ∀ s, l₁.filter (fun x => key x = s) = l₂.filter (fun x => key x = s)) :
    pySorted key l₁ = pySorted key l₂ := by
  refine sortedByKey_filter_ext key _ _ (pySorted_sorted key l₁) (pySorted_sorted key l₂) ?_
  intro s
  rw [pySorted_filter, pySorted_filter]
  exact hf s

theorem pySorted_eq_self {α : Type} (key : α → String) (l : List α)
    (h : sortedByKey key l) : pySorted key l = l := by
  refine sortedByKey_filter_ext key _ _ (pySorted_sorted key l) h ?_
  intro s
  rw [pySorted_filter]

/-! ## Unfolding equations of the flatteners -/

theorem flattenSigs_zero (select : ModuleInfo → List SignalDecl) (m : ModuleInfo)
    (path : String) (module_infos : List ModuleInfo) :
    flattenSigs select 0 m path module_infos = .error .outOfFuel := rfl

theorem flattenSigs_succ (select : ModuleInfo → List SignalDecl) (fuel : Nat)
    (m : ModuleInfo) (path : String) (module_infos : List ModuleInfo) :
    flattenSigs select (fuel + 1) m path module_infos =
      match garInsts (fun cm p => flattenSigs select fuel cm p module_infos)
          module_infos m.instances path with
      | .error e => .error e
      | .ok rest =>
        .ok (pySorted (fun s => s.module_name)
          ((select m).map (fun d => ⟨d, path ++ "." ++ d.name, m.module_name⟩) ++ rest)) :=
  rfl

theorem specDFSigs_zero (select : ModuleInfo → List SignalDecl) (m : ModuleInfo)
    (path : String) (module_infos : List ModuleInfo) :
    specDFSigs select 0 m path module_infos = .error .outOfFuel := rfl

theorem specDFSigs_succ (select : ModuleInfo → List SignalDecl) (fuel : Nat)
    (m : ModuleInfo) (path : String) (module_infos : List ModuleInfo) :
    specDFSigs select (fuel + 1) m path module_infos =
      match garInsts (fun cm p => specDFSigs select fuel cm p module_infos)
          module_infos m.instances path with
      | .error e => .error e
      | .ok rest =>
        .ok ((select m).map (fun d => ⟨d, path ++ "." ++ d.name, m.module_name⟩) ++ rest) :=
  rfl

/-! ## The cyclic registry never completes a traversal -/

theorem cycle_no_fuel (select : ModuleInfo → List SignalDecl) :
    ∀ (fuel : Nat) (path : String),
      flattenSigs select fuel c2A path c2mods = .error .outOfFuel ∧
      flattenSigs select fuel c2B path c2mods = .error .outOfFuel := by
  intro fuel
  induction fuel with
  | zero => exact fun _ => ⟨rfl, rfl⟩
  | succ n ih =>
    intro path
    constructor
    · rw [flattenSigs_succ]
      have hA : c2A.instances = [("B", "u_b")] := rfl
      rw [hA]
      have hgi : get_module_info "B" c2mods = some c2B := rfl
      simp only [garInsts, hgi, (ih (path ++ "." ++ "u_b")).2]
    · rw [flattenSigs_succ]
      have hB : c2B.instances = [("A", "u_a")] := rfl
      rw [hB]
      have hgi : get_module_info "A" c2mods = some c2A := rfl
      simp only [garInsts, hgi, (ih (path ++ "." ++ "u_a")).1]

/-- Claim C2: the source has no cycle guard.  On the two-module cycle
(`A` instantiates `B` as `u_b`, `B` instantiates `A` as `u_a`), flattening
from either root — for registers or for ports — exhausts every recursion
budget: it never completes with output and never reports a cycle.  The
Python original recurses until the interpreter aborts with `RecursionError`
instead of failing with `CycleDetected`. -/
theorem flatten_cycle_never_completes :
    ∀ (fuel : Nat) (path : String),
      get_all_registers fuel c2A path c2mods = .error .outOfFuel ∧
      get_all_registers fuel c2B path c2mods = .error .outOfFuel ∧
      get_all_ports fuel c2A path c2mods = .error .outOfFuel ∧
      get_all_ports fuel c2B path c2mods = .error .outOfFuel := by
  intro fuel path
  rcases cycle_no_fuel (fun m => m.regs_matches) fuel path with ⟨h1, h2⟩
  rcases cycle_no_fuel (fun m => m.port_matches) fuel path with ⟨h3, h4⟩
  exact ⟨h1, h2, h3, h4⟩

/-- Claim C4: an instance edge naming a child absent from the registry is
not skipped.  `get_module_info` yields `None`, the recursive call
dereferences it, and the whole flattening aborts (Python: `AttributeError`),
instead of producing the flattening with the edge removed (which here would
be `A`'s own register list). -/
theorem get_all_registers_unresolved_crash :
    get_module_info "Missing" [c4A] = none ∧
    get_all_registers 2 c4A "`PATH_TOP" [c4A] = .error .noneModule ∧
    get_all_registers 2 (ModuleInfo.mk "A" [] [regDecl "r_s"] []) "`PATH_TOP"
        [ModuleInfo.mk "A" [] [regDecl "r_s"] []] =
      .ok [⟨regDecl "r_s", "`PATH_TOP.r_s", "A"⟩] := by
  exact ⟨rfl, by decide, by decide⟩

/-- Claim C1 (counterexample): on the registry where `top` owns a unique
register `a_b_s` and two instances `a`, `x` of leaf modules both own `b_s`,
the resolver renames the duplicated `b_s` records to `a_b_s` and `x_b_s`,
and the derived name `a_b_s` collides with the untouched unique register:
duplicate `declaration.name` values remain in the output. -/
theorem resolve_conflicts_duplicate_survives :
    get_all_registers 2 c1top "`PATH_TOP" c1mods = .ok c1flat ∧
    (resolve_conflicts c1flat).map (fun s => s.decl.name) =
      ["a_b_s", "x_b_s", "a_b_s"] ∧
    ¬ ((resolve_conflicts c1flat).map (fun s => s.decl.name)).Nodup := by
  refine ⟨by decide, by decide, by decide⟩

/-- Claim C1 (amended): `resolve_conflicts` returns a list of exactly the
input's length (registers are never dropped), a permutation — by the stable
module-name sort — of the input with each record whose name occurs more
than once replaced by its path-derived rename (root token stripped, dots to
underscores) and records with unique names passed through unchanged; global
uniqueness of the resulting names is, however, not guaranteed. -/
theorem resolve_conflicts_rename_spec (l : List SpySignal) :
    (resolve_conflicts l).length = l.length ∧
    (resolve_conflicts l).Perm (l.map (fun sig =>
      if 1 < (l.map (fun t => t.decl.name)).count sig.decl.name then renameReg sig
      else sig)) ∧
    (∀ sig ∈ l, (l.map (fun t => t.decl.name)).count sig.decl.name = 1 →
      sig ∈ resolve_conflicts l) := by
  have hdef : resolve_conflicts l = pySorted (fun x => x.module_name)
      (l.map (fun sig =>
        if 1 < (l.map (fun t => t.decl.name)).count sig.decl.name then renameReg sig
        else sig)) := rfl
  refine ⟨?_, ?_, ?_⟩
  · rw [hdef, length_pySorted, List.length_map]
  · rw [hdef]; exact pySorted_perm _ _
  · intro sig hsig hcount
    rw [hdef, mem_pySorted]
    refine List.mem_map.mpr ⟨sig, hsig, ?_⟩
    rw [hcount, if_neg (lt_irrefl 1)]

/-- Concrete instantiation of the amended C1 theorem: the unique register of
`w8regs` passes through the resolver unchanged. -/
theorem resolve_conflicts_rename_spec_witness :
    (⟨regDecl "r_s", "`PATH_TOP.u.r_s", "M"⟩ : SpySignal) ∈ resolve_conflicts w8regs :=
  (resolve_conflicts_rename_spec w8regs).2.2
    ⟨regDecl "r_s", "`PATH_TOP.u.r_s", "M"⟩ (by decide) (by decide)

/-! ## Top-module characterization -/

theorem is_instantiated_iff (nm : String) (mods : List ModuleInfo) :
    is_instantiated nm mods = true ↔
      ∃ m ∈ mods, ∃ e ∈ m.instances, e.1 = nm := by
  unfold is_instantiated
  simp [List.any_eq_true]

theorem potential_top_pred (mods : List ModuleInfo) (m : ModuleInfo) :
    ((!m.instances.isEmpty && !is_instantiated m.module_name mods) = true) ↔
      (m.instances ≠ [] ∧ ∀ m' ∈ mods, ∀ e ∈ m'.instances, e.1 ≠ m.module_name) := by
  rw [Bool.and_eq_true, Bool.not_eq_true', Bool.not_eq_true']
  constructor
  · rintro ⟨h1, h2⟩
    refine ⟨List.isEmpty_eq_false.mp h1, ?_⟩
    intro m' hm' e he heq
    have hcontra : is_instantiated m.module_name mods = true :=
      (is_instantiated_iff _ _).mpr ⟨m', hm', e, he, heq⟩
    rw [hcontra] at h2
    exact absurd h2 (by simp)
  · rintro ⟨h1, h2⟩
    refine ⟨List.isEmpty_eq_false.mpr h1, ?_⟩
    cases hinst : is_instantiated m.module_name mods with
    | false => rfl
    | true =>
      rcases (is_instantiated_iff _ _).mp hinst with ⟨m', hm', e, he, heq⟩
      exact absurd heq (h2 m' hm' e he)

theorem eq_singleton_of_forall_eq {α : Type} {l : List α} {M : α}
    (hall : ∀ z ∈ l, z = M) (hmem : M ∈ l) (hnd : l.Nodup) : l = [M] := by
  cases l with
  | nil => cases hmem
  | cons c r =>
    have hc : c = M := hall c (by simp)
    subst hc
    have hr : r = [] := by
      cases r with
      | nil => rfl
      | cons d r2 =>
        have hd : d = c := hall d (by simp)
        rcases List.pairwise_cons.mp hnd with ⟨hne, _⟩
        exact absurd hd.symm (hne d (by simp))
    rw [hr]

/-- Claim C3: with no override and at least two modules in a
duplicate-free registry, `find_top_module` returns `M` iff `M` is the
unique module with at least one outgoing instance edge that is never the
target of any instance edge; with zero such candidates it fails with the
top-module-not-found exit, and with two or more it fails with the
ambiguous-top exit — in both cases before any flattening output exists. -/
theorem find_top_module_characterization (mods : List ModuleInfo)
    (hlen : 2 ≤ mods.length) (hnodup : mods.Nodup) :
    (∀ M, find_top_module "" mods = .ok M ↔
      (M ∈ mods ∧ M.instances ≠ [] ∧
        (∀ m' ∈ mods, ∀ e ∈ m'.instances, e.1 ≠ M.module_name) ∧
        (∀ m ∈ mods, m.instances ≠ [] →
          (∀ m' ∈ mods, ∀ e ∈ m'.instances, e.1 ≠ m.module_name) → m = M))) ∧
    ((∀ m ∈ mods, m.instances ≠ [] →
        ∃ m' ∈ mods, ∃ e ∈ m'.instances, e.1 = m.module_name) →
      find_top_module "" mods = .error .top_module_not_found) ∧
    (∀ m₁ ∈ mods, ∀ m₂ ∈ mods, m₁ ≠ m₂ →
      m₁.instances ≠ [] →
      (∀ m' ∈ mods, ∀ e ∈ m'.instances, e.1 ≠ m₁.module_name) →
      m₂.instances ≠ [] →
      (∀ m' ∈ mods, ∀ e ∈ m'.instances, e.1 ≠ m₂.module_name) →
      find_top_module "" mods = .error .ambiguous_top_module) := by
  cases mods with
  | nil => norm_num at hlen
  | cons a t0 =>
    cases t0 with
    | nil => norm_num at hlen
    | cons b t =>
      have hred : find_top_module "" (a :: b :: t) =
          topFromCandidates ((a :: b :: t).filter (fun m =>
            !m.instances.isEmpty && !is_instantiated m.module_name (a :: b :: t))) := rfl
      have hmemfilter : ∀ z, z ∈ (a :: b :: t).filter (fun m =>
            !m.instances.isEmpty && !is_instantiated m.module_name (a :: b :: t)) ↔
          (z ∈ (a :: b :: t) ∧ z.instances ≠ [] ∧
            ∀ m' ∈ (a :: b :: t), ∀ e ∈ m'.instances, e.1 ≠ z.module_name) := by
        intro z
        rw [List.mem_filter, potential_top_pred]
      refine ⟨?_, ?_, ?_⟩
      · intro M
        constructor
        · intro hok
          rw [hred] at hok
          cases hfilt : (a :: b :: t).filter (fun m =>
              !m.instances.isEmpty && !is_instantiated m.module_name (a :: b :: t)) with
          | nil =>
            rw [hfilt] at hok
            exact absurd hok (by simp [topFromCandidates])
          | cons z r =>
            cases r with
            | nil =>
              rw [hfilt] at hok
              have hzM : z = M := by simpa [topFromCandidates] using hok
              subst hzM
              have hzmem := (hmemfilter z).mp (by rw [hfilt]; simp)
              refine ⟨hzmem.1, hzmem.2.1, hzmem.2.2, ?_⟩
              intro m hm h1 h2
              have hmf : m ∈ (a :: b :: t).filter (fun m =>
                  !m.instances.isEmpty && !is_instantiated m.module_name (a :: b :: t)) :=
                (hmemfilter m).mpr ⟨hm, h1, h2⟩
              rw [hfilt] at hmf
              simpa using hmf
            | cons z2 r2 =>
              rw [hfilt] at hok
              exact absurd hok (by simp [topFromCandidates])
        · rintro ⟨hM, h1, h2, huniq⟩
          have hMf : M ∈ (a :: b :: t).filter (fun m =>
              !m.instances.isEmpty && !is_instantiated m.module_name (a :: b :: t)) :=
            (hmemfilter M).mpr ⟨hM, h1, h2⟩
          have hall : ∀ z ∈ (a :: b :: t).filter (fun m =>
              !m.instances.isEmpty && !is_instantiated m.module_name (a :: b :: t)),
              z = M := by
            intro z hzf
            rcases (hmemfilter z).mp hzf with ⟨hz, hz1, hz2⟩
            exact huniq z hz hz1 hz2
          have hsingle := eq_singleton_of_forall_eq hall hMf (hnodup.filter _)
          rw [hred, hsingle]
          rfl
      · intro hz
        have hfilt : (a :: b :: t).filter (fun m =>
            !m.instances.isEmpty && !is_instantiated m.module_name (a :: b :: t)) = [] := by
          rw [List.filter_eq_nil_iff]
          intro m hm hpred
          rcases (potential_top_pred (a :: b :: t) m).mp hpred with ⟨h1, h2⟩
          rcases hz m hm h1 with ⟨m', hm', e, he, heq⟩
          exact h2 m' hm' e he heq
        rw [hred, hfilt]
        rfl
      · intro m₁ hm₁ m₂ hm₂ hne h11 h12 h21 h22
        have hf1 : m₁ ∈ (a :: b :: t).filter (fun m =>
            !m.instances.isEmpty && !is_instantiated m.module_name (a :: b :: t)) :=
          (hmemfilter m₁).mpr ⟨hm₁, h11, h12⟩
        have hf2 : m₂ ∈ (a :: b :: t).filter (fun m =>
            !m.instances.isEmpty && !is_instantiated m.module_name (a :: b :: t)) :=
          (hmemfilter m₂).mpr ⟨hm₂, h21, h22⟩
        cases hfilt : (a :: b :: t).filter (fun m =>
            !m.instances.isEmpty && !is_instantiated m.module_name (a :: b :: t)) with
        | nil => rw [hfilt] at hf1; cases hf1
        | cons z r =>
          cases r with
          | nil =>
            rw [hfilt] at hf1 hf2
            have e1 : m₁ = z := by simpa using hf1
            have e2 : m₂ = z := by simpa using hf2
            exact absurd (e1.trans e2.symm) hne
          | cons z2 r2 =>
            rw [hred, hfilt]
            rfl

/-- Concrete instantiation of the C3 characterization: in the registry
`[A, B]` where only `A` instantiates anything and nothing instantiates `A`,
inference returns `A`. -/
theorem find_top_module_characterization_witness :
    2 ≤ w3mods.length ∧ w3mods.Nodup ∧ find_top_module "" w3mods = .ok w3A := by
  refine ⟨by decide, by decide, ?_⟩
  exact ((find_top_module_characterization w3mods (by decide) (by decide)).1 w3A).mpr
    (by decide)

/-! ## Python `min` and group helpers -/

theorem pyMin_nil (first : SpySignal) : pyMinByPathLen first [] = first := rfl

theorem pyMin_fold (first p : SpySignal) (rest : List SpySignal) :
    pyMinByPathLen first (p :: rest) =
      pyMinByPathLen (if p.path.length < first.path.length then p else first) rest := rfl

theorem pyMin_mem : ∀ (rest : List SpySignal) (first : SpySignal),
    pyMinByPathLen first rest ∈ first :: rest := by
  intro rest
  induction rest with
  | nil => intro first; rw [pyMin_nil]; simp
  | cons p t ih =>
    intro first
    rw [pyMin_fold]
    by_cases h : p.path.length < first.path.length
    · rw [if_pos h]
      rcases List.mem_cons.mp (ih p) with hm | hm
      · rw [hm]; simp
      · simp [List.mem_cons, Or.inr (Or.inr hm)]
    · rw [if_neg h]
      rcases List.mem_cons.mp (ih first) with hm | hm
      · rw [hm]; simp
      · simp [List.mem_cons, Or.inr (Or.inr hm)]

theorem pyMin_le : ∀ (rest : List SpySignal) (first x : SpySignal),
    x ∈ first :: rest →
    (pyMinByPathLen first rest).path.length ≤ x.path.length := by
  intro rest
  induction rest with
  | nil =>
    intro first x hx
    have hxf : x = first := by simpa using hx
    rw [hxf, pyMin_nil]
  | cons p t ih =>
    intro first x hx
    rw [pyMin_fold]
    by_cases h : p.path.length < first.path.length
    · rw [if_pos h]
      rcases List.mem_cons.mp hx with hxf | hx
      · rw [hxf]
        exact le_trans (ih p p (by simp)) (le_of_lt h)
      · exact ih p x hx
    · rw [if_neg h]
      rcases List.mem_cons.mp hx with hxf | hx
      · rw [hxf]
        exact ih first first (by simp)
      · rcases List.mem_cons.mp hx with hxp | hx
        · rw [hxp]
          exact le_trans (ih first first (by simp)) (Nat.le_of_not_lt h)
        · exact ih first x (List.mem_cons_of_mem _ hx)

theorem pyMin_split : ∀ (rest : List SpySignal) (first : SpySignal),
    ∃ l₁ l₂, first :: rest = l₁ ++ (pyMinByPathLen first rest) :: l₂ ∧
      (∀ q ∈ l₁, (pyMinByPathLen first rest).path.length < q.path.length) ∧
      (∀ q ∈ l₂, (pyMinByPathLen first rest).path.length ≤ q.path.length) := by
  intro rest
  induction rest with
  | nil => intro first; exact ⟨[], [], rfl, by simp, by simp⟩
  | cons p t ih =>
    intro first
    rw [pyMin_fold]
    by_cases h : p.path.length < first.path.length
    · rw [if_pos h]
      rcases ih p with ⟨l₁, l₂, hsplit, h1, h2⟩
      refine ⟨first :: l₁, l₂, ?_, ?_, h2⟩
      · rw [List.cons_append]
        exact congrArg (first :: ·) hsplit
      · intro x hx
        rcases List.mem_cons.mp hx with hxf | hx
        · rw [hxf]
          exact lt_of_le_of_lt (pyMin_le t p p (by simp)) h
        · exact h1 x hx
    · rw [if_neg h]
      rcases ih first with ⟨l₁, l₂, hsplit, h1, h2⟩
      cases l₁ with
      | nil =>
        simp only [List.nil_append] at hsplit
        injection hsplit with hm hl
        refine ⟨[], p :: l₂, ?_, by simp, ?_⟩
        · simp only [List.nil_append]
          rw [← hm, ← hl]
        · intro x hx
          rcases List.mem_cons.mp hx with hxp | hx
          · rw [hxp, ← hm]
            exact Nat.le_of_not_lt h
          · exact h2 x hx
      | cons c l₁t =>
        rw [List.cons_append] at hsplit
        injection hsplit with hc hrest
        refine ⟨first :: p :: l₁t, l₂, ?_, ?_, h2⟩
        · rw [List.cons_append, List.cons_append]
          exact congrArg (first :: ·) (congrArg (p :: ·) hrest)
        · intro x hx
          have hcfirst : (pyMinByPathLen first t).path.length < first.path.length := by
            have := h1 c (by simp)
            rw [← hc] at this
            exact this
          rcases List.mem_cons.mp hx with hxf | hx
          · rw [hxf]
            exact hcfirst
          · rcases List.mem_cons.mp hx with hxp | hx
            · rw [hxp]
              exact lt_of_lt_of_le hcfirst (Nat.le_of_not_lt h)
            · exact h1 x (List.mem_cons_of_mem _ hx)

theorem filterMap_if {α β : Type} (c : α → Prop) [DecidablePred c] (f : α → β)
    (l : List α) :
    l.filterMap (fun x => if c x then none else some (f x)) =
      (l.filter (fun x => !(decide (c x)))).map f := by
  induction l with
  | nil => rfl
  | cons a t ih =>
    by_cases h : c a
    · simp [List.filterMap_cons, List.filter_cons, h, ih]
    · simp [List.filterMap_cons, List.filter_cons, h, ih]

theorem length_groupOf (sigs : List SpySignal) (n : String) :
    (groupOf sigs n).length = (sigs.map (fun s => s.decl.name)).count n := by
  induction sigs with
  | nil => rfl
  | cons s t ih =>
    unfold groupOf at ih ⊢
    rw [List.filter_cons, List.map_cons, List.count_cons]
    by_cases h : s.decl.name = n
    · have hb : (s.decl.name == n) = true := beq_iff_eq.mpr h
      rw [if_pos (decide_eq_true h), hb, List.length_cons, ih]
      simp
    · have hb : (s.decl.name == n) = false := beq_eq_false_iff_ne.mpr h
      rw [if_neg (by rw [decide_eq_false h]; exact Bool.false_ne_true), hb, ih]
      simp

theorem mem_firstKeysAux (n : String) :
    ∀ (l seen : List String), n ∈ firstKeysAux seen l ↔ n ∈ l ∧ n ∉ seen := by
  intro l
  induction l with
  | nil => intro seen; simp [firstKeysAux]
  | cons m t ih =>
    intro seen
    by_cases hm : m ∈ seen
    · rw [firstKeysAux, if_pos hm, ih]
      constructor
      · rintro ⟨h1, h2⟩
        exact ⟨List.mem_cons_of_mem _ h1, h2⟩
      · rintro ⟨h1, h2⟩
        rcases List.mem_cons.mp h1 with hnm | h1
        · exact absurd (hnm ▸ hm) h2
        · exact ⟨h1, h2⟩
    · rw [firstKeysAux, if_neg hm]
      by_cases hnm : n = m
      · subst hnm
        simp [hm]
      · simp only [List.mem_cons, hnm, false_or]
        rw [ih]
        simp [List.mem_cons, hnm]

theorem mem_firstKeys (n : String) (l : List String) :
    n ∈ firstKeys l ↔ n ∈ l := by
  rw [firstKeys, mem_firstKeysAux]
  simp

theorem firstKeysAux_eq_self :
    ∀ (l seen : List String), l.Nodup → (∀ x ∈ l, x ∉ seen) →
      firstKeysAux seen l = l := by
  intro l
  induction l with
  | nil => intro seen _ _; rfl
  | cons m t ih =>
    intro seen hnd hdisj
    rcases List.pairwise_cons.mp hnd with ⟨hm, ht⟩
    rw [firstKeysAux, if_neg (hdisj m (by simp))]
    refine congrArg (m :: ·) (ih (m :: seen) ht ?_)
    intro x hx
    rw [List.mem_cons]
    rintro (hxm | hxs)
    · exact (hm x hx) hxm.symm
    · exact hdisj x (List.mem_cons_of_mem _ hx) hxs

theorem firstKeys_eq_self (l : List String) (h : l.Nodup) : firstKeys l = l :=
  firstKeysAux_eq_self l [] h (by simp)

/-! ## Group processing of the port resolver -/

theorem processGroup_one (p : SpySignal) :
    processGroup [p] = if 1 < countDots p.path then [p] else [] := rfl

theorem processGroup_cons2 (p q : SpySignal) (rest : List SpySignal) :
    processGroup (p :: q :: rest) =
      if ((p :: q :: rest).filter
          (fun x => x.decl.direction = some "output")).isEmpty then
        if 1 < countDots (pyMinByPathLen p (q :: rest)).path then
          [pyMinByPathLen p (q :: rest)]
        else []
      else
        ((p :: q :: rest).filter (fun x => x.decl.direction = some "output")).filterMap
          (fun port => if countDots port.path ≤ 1 then none
            else some (renamePort port)) := rfl

theorem processGroup_with_output (p q : SpySignal) (rest : List SpySignal)
    (h : ∃ x ∈ p :: q :: rest, x.decl.direction = some "output") :
    processGroup (p :: q :: rest) =
      ((p :: q :: rest).filter (fun x =>
        decide (x.decl.direction = some "output") && decide (1 < countDots x.path))).map
        renamePort := by
  rcases h with ⟨o, ho, hdir⟩
  have hne : ((p :: q :: rest).filter
      (fun x => x.decl.direction = some "output")).isEmpty = false := by
    rw [List.isEmpty_eq_false]
    intro hnil
    rw [List.filter_eq_nil_iff] at hnil
    exact hnil o ho (by simpa using hdir)
  rw [processGroup_cons2,
    if_neg (fun hcontra => Bool.false_ne_true (hne.symm.trans hcontra)),
    filterMap_if, List.filter_filter]
  refine congrArg (List.map renamePort) (List.filter_congr ?_)
  intro x _
  by_cases h1 : countDots x.path ≤ 1
  · rw [decide_eq_true h1, decide_eq_false (Nat.not_lt.mpr h1)]
    simp
  · rw [decide_eq_false h1, decide_eq_true (Nat.lt_of_not_le h1)]
    simp

theorem processGroup_no_output (p q : SpySignal) (rest : List SpySignal)
    (h : ∀ x ∈ p :: q :: rest, ¬ x.decl.direction = some "output") :
    processGroup (p :: q :: rest) =
      if 1 < countDots (pyMinByPathLen p (q :: rest)).path then
        [pyMinByPathLen p (q :: rest)]
      else [] := by
  have hemp : (p :: q :: rest).filter
      (fun x => x.decl.direction = some "output") = [] := by
    rw [List.filter_eq_nil_iff]
    intro a ha
    simpa using h a ha
  rw [processGroup_cons2, hemp]
  rfl

theorem processGroup_sub (g : List SpySignal) :
    ∀ r ∈ processGroup g, 1 < countDots r.path ∧
      (r ∈ g ∨ ∃ x ∈ g, 2 ≤ g.length ∧ x.decl.direction = some "output" ∧
        1 < countDots x.path ∧ r = renamePort x) := by
  match g with
  | [] => intro r hr; cases hr
  | [p] =>
    intro r hr
    rw [processGroup_one] at hr
    by_cases h : 1 < countDots p.path
    · rw [if_pos h] at hr
      have hrp : r = p := by simpa using hr
      subst hrp
      exact ⟨h, Or.inl (by simp)⟩
    · rw [if_neg h] at hr
      cases hr
  | p :: q :: rest =>
    intro r hr
    rw [processGroup_cons2] at hr
    by_cases hemp : ((p :: q :: rest).filter
        (fun x => x.decl.direction = some "output")).isEmpty = true
    · rw [if_pos hemp] at hr
      by_cases hd : 1 < countDots (pyMinByPathLen p (q :: rest)).path
      · rw [if_pos hd] at hr
        have hrm : r = pyMinByPathLen p (q :: rest) := by simpa using hr
        subst hrm
        exact ⟨hd, Or.inl (pyMin_mem (q :: rest) p)⟩
      · rw [if_neg hd] at hr
        cases hr
    · rw [if_neg hemp] at hr
      rcases List.mem_filterMap.mp hr with ⟨x, hxf, hxeq⟩
      rcases List.mem_filter.mp hxf with ⟨hxg, hxd⟩
      by_cases hle : countDots x.path ≤ 1
      · rw [if_pos hle] at hxeq
        cases hxeq
      · rw [if_neg hle] at hxeq
        have hrx : renamePort x = r := by
          injection hxeq
        have hx1 : 1 < countDots x.path := Nat.lt_of_not_le hle
        have hpath : r.path = x.path := by rw [← hrx]; exact rfl
        refine ⟨?_, Or.inr ⟨x, hxg, by simp, by simpa using hxd, hx1, hrx.symm⟩⟩
        rw [hpath]
        exact hx1

/-- Claim C5: for a group of same-named flattened ports with more than one
member, the resolver (whose output is exactly the module-name-sorted
concatenation of the processed name groups, first conjunct) keeps — when
some member is an output — exactly the output members of path depth above
one, each renamed by the register path-flattening transform, dropping all
other members; and — when no member is an output — at most the first
shortest-path member, kept iff its path depth exceeds one. -/
theorem resolve_port_conflicts_group_policy (sigs : List SpySignal) (n : String)
    (hg : 1 < (groupOf sigs n).length) :
    resolve_port_conflicts sigs =
      pySorted (fun x => x.module_name)
        ((firstKeys (sigs.map (fun s => s.decl.name))).flatMap
          (fun k => processGroup (groupOf sigs k))) ∧
    ((∃ p ∈ groupOf sigs n, p.decl.direction = some "output") →
      processGroup (groupOf sigs n) =
        ((groupOf sigs n).filter (fun p =>
          decide (p.decl.direction = some "output") &&
            decide (1 < countDots p.path))).map renamePort) ∧
    ((∀ p ∈ groupOf sigs n, ¬ p.decl.direction = some "output") →
      ∃ m ∈ groupOf sigs n,
        (∀ p ∈ groupOf sigs n, m.path.length ≤ p.path.length) ∧
        processGroup (groupOf sigs n) =
          if 1 < countDots m.path then [m] else []) := by
  obtain ⟨p, q, rest, hG⟩ : ∃ p q rest, groupOf sigs n = p :: q :: rest := by
    rcases hGl : groupOf sigs n with _ | ⟨p, r⟩
    · rw [hGl] at hg; norm_num at hg
    · rcases r with _ | ⟨q, rest⟩
      · rw [hGl] at hg; norm_num at hg
      · exact ⟨p, q, rest, rfl⟩
  refine ⟨rfl, ?_, ?_⟩
  · intro hex
    rw [hG] at hex ⊢
    exact processGroup_with_output p q rest hex
  · intro hno
    rw [hG] at hno ⊢
    refine ⟨pyMinByPathLen p (q :: rest), pyMin_mem (q :: rest) p, ?_, ?_⟩
    · intro x hx
      exact pyMin_le (q :: rest) p x hx
    · exact processGroup_no_output p q rest hno

/-- Concrete instantiation of the C5 policy: in a two-member group with one
output at depth 2 and one input, only the renamed output survives. -/
theorem resolve_port_conflicts_group_policy_witness :
    1 < (groupOf w5sigs "p").length ∧
    processGroup (groupOf w5sigs "p") =
      [⟨⟨some "output", "logic", none, "u1_p"⟩, "`PATH_TOP.u1.p", "M"⟩] := by
  refine ⟨by decide, ?_⟩
  have h := (resolve_port_conflicts_group_policy w5sigs "p" (by decide)).2.1 (by decide)
  rw [h]
  decide

/-- Claim C6: a flattened port whose name occurs exactly once in the list is
kept (unchanged) by the port resolver iff its path has more than one dot;
in particular a uniquely-named port of the top module itself (one dot)
never appears in the resolved output. -/
theorem port_singleton_kept_iff (sigs : List SpySignal) (p : SpySignal)
    (h1 : p ∈ sigs)
    (h2 : (sigs.map (fun s => s.decl.name)).count p.decl.name = 1) :
    p ∈ resolve_port_conflicts sigs ↔ 1 < countDots p.path := by
  have hdef : resolve_port_conflicts sigs =
      pySorted (fun x => x.module_name)
        ((firstKeys (sigs.map (fun s => s.decl.name))).flatMap
          (fun k => processGroup (groupOf sigs k))) := rfl
  constructor
  · intro hmem
    rw [hdef, mem_pySorted] at hmem
    rcases List.mem_flatMap.mp hmem with ⟨k, _, hpg⟩
    exact (processGroup_sub _ p hpg).1
  · intro hdots
    have hglen : (groupOf sigs p.decl.name).length = 1 := by
      rw [length_groupOf]; exact h2
    have hpg : p ∈ groupOf sigs p.decl.name :=
      List.mem_filter.mpr ⟨h1, by simp⟩
    have hG : groupOf sigs p.decl.name = [p] := by
      rcases hGl : groupOf sigs p.decl.name with _ | ⟨c, r⟩
      · rw [hGl] at hpg; cases hpg
      · rw [hGl] at hglen hpg
        rcases r with _ | ⟨d, r2⟩
        · have hpc : p = c := by simpa using hpg
          rw [hpc]
        · simp only [List.length_cons] at hglen
          omega
    have hkey : p.decl.name ∈ firstKeys (sigs.map (fun s => s.decl.name)) := by
      rw [mem_firstKeys]
      exact List.mem_map.mpr ⟨p, h1, rfl⟩
    rw [hdef, mem_pySorted]
    refine List.mem_flatMap.mpr ⟨p.decl.name, hkey, ?_⟩
    rw [hG, processGroup_one, if_pos hdots]
    simp

/-- Concrete instantiation of C6: the unique depth-2 port `clk` is kept. -/
theorem port_singleton_kept_iff_witness :
    (⟨portDecl "input" "clk", "`PATH_TOP.u1.clk", "M"⟩ : SpySignal) ∈ w6sigs ∧
    (w6sigs.map (fun s => s.decl.name)).count
      (portDecl "input" "clk").name = 1 ∧
    ((⟨portDecl "input" "clk", "`PATH_TOP.u1.clk", "M"⟩ : SpySignal) ∈
        resolve_port_conflicts w6sigs ↔
      1 < countDots "`PATH_TOP.u1.clk") := by
  refine ⟨by decide, by decide, ?_⟩
  exact port_singleton_kept_iff w6sigs
    ⟨portDecl "input" "clk", "`PATH_TOP.u1.clk", "M"⟩ (by decide) (by decide)

/-- Claim C10: in an all-input (or inout) conflicting group, the kept record
is the first member of the group, in input order, among those of minimal
path length in characters: every earlier member is strictly longer, every
later member at least as long. -/
theorem port_tie_break_first (sigs : List SpySignal) (n : String)
    (hg : 1 < (groupOf sigs n).length)
    (hno : ∀ p ∈ groupOf sigs n, ¬ p.decl.direction = some "output") :
    ∃ l₁ l₂ m, groupOf sigs n = l₁ ++ m :: l₂ ∧
      (∀ q ∈ l₁, m.path.length < q.path.length) ∧
      (∀ q ∈ l₂, m.path.length ≤ q.path.length) ∧
      processGroup (groupOf sigs n) = if 1 < countDots m.path then [m] else [] := by
  obtain ⟨p, q, rest, hG⟩ : ∃ p q rest, groupOf sigs n = p :: q :: rest := by
    rcases hGl : groupOf sigs n with _ | ⟨p, r⟩
    · rw [hGl] at hg; norm_num at hg
    · rcases r with _ | ⟨q, rest⟩
      · rw [hGl] at hg; norm_num at hg
      · exact ⟨p, q, rest, rfl⟩
  rcases pyMin_split (q :: rest) p with ⟨l₁, l₂, hsplit, hs1, hs2⟩
  refine ⟨l₁, l₂, pyMinByPathLen p (q :: rest), ?_, hs1, hs2, ?_⟩
  · rw [hG]; exact hsplit
  · rw [hG]
    refine processGroup_no_output p q rest ?_
    rw [hG] at hno
    exact hno

/-- Concrete instantiation of C10: with two inputs `nn` of equal path
length, the group keeps the member that occurs first in the input list. -/
theorem port_tie_break_first_witness :
    1 < (groupOf w10sigs "nn").length ∧
    (∀ p ∈ groupOf w10sigs "nn", ¬ p.decl.direction = some "output") ∧
    (∃ l₁ l₂ m, groupOf w10sigs "nn" = l₁ ++ m :: l₂ ∧
      (∀ q ∈ l₁, m.path.length < q.path.length) ∧
      (∀ q ∈ l₂, m.path.length ≤ q.path.length) ∧
      processGroup (groupOf w10sigs "nn") =
        if 1 < countDots m.path then [m] else []) ∧
    processGroup (groupOf w10sigs "nn") =
      [⟨portDecl "input" "nn", "`PATH_TOP.aa.nn", "M"⟩] := by
  exact ⟨by decide, by decide,
    port_tie_break_first w10sigs "nn" (by decide) (by decide), by decide⟩

/-! ## Conflict-resolver fixed points -/

theorem resolve_conflicts_eq_sorted_map (l : List SpySignal) :
    resolve_conflicts l = pySorted (fun x => x.module_name)
      (l.map (fun sig =>
        if 1 < (l.map (fun t => t.decl.name)).count sig.decl.name then renameReg sig
        else sig)) := rfl

theorem resolve_port_conflicts_eq_sorted_flatMap (sigs : List SpySignal) :
    resolve_port_conflicts sigs = pySorted (fun x => x.module_name)
      ((firstKeys (sigs.map (fun s => s.decl.name))).flatMap
        (fun k => processGroup (groupOf sigs k))) := rfl

theorem resolve_conflicts_sorted (l : List SpySignal) :
    sortedByKey (fun x => x.module_name) (resolve_conflicts l) := by
  rw [resolve_conflicts_eq_sorted_map]
  exact pySorted_sorted _ _

theorem resolve_port_conflicts_sorted (sigs : List SpySignal) :
    sortedByKey (fun x => x.module_name) (resolve_port_conflicts sigs) := by
  rw [resolve_port_conflicts_eq_sorted_flatMap]
  exact pySorted_sorted _ _

theorem resolve_port_conflicts_dots (sigs : List SpySignal) :
    ∀ x ∈ resolve_port_conflicts sigs, 1 < countDots x.path := by
  intro x hx
  rw [resolve_port_conflicts_eq_sorted_flatMap, mem_pySorted] at hx
  rcases List.mem_flatMap.mp hx with ⟨k, _, hpg⟩
  exact (processGroup_sub _ x hpg).1

theorem groupOf_eq_singleton (sigs : List SpySignal) (p : SpySignal)
    (h1 : p ∈ sigs)
    (h2 : (sigs.map (fun s => s.decl.name)).count p.decl.name = 1) :
    groupOf sigs p.decl.name = [p] := by
  have hglen : (groupOf sigs p.decl.name).length = 1 := by
    rw [length_groupOf]; exact h2
  have hpg : p ∈ groupOf sigs p.decl.name := List.mem_filter.mpr ⟨h1, by simp⟩
  rcases hGl : groupOf sigs p.decl.name with _ | ⟨c, r⟩
  · rw [hGl] at hpg; cases hpg
  · rw [hGl] at hglen hpg
    rcases r with _ | ⟨d, r2⟩
    · have hpc : p = c := by simpa using hpg
      rw [hpc]
    · simp only [List.length_cons] at hglen
      omega

theorem flatMap_singleton_id {α : Type} (l : List α) (f : α → List α)
    (h : ∀ a ∈ l, f a = [a]) : l.flatMap f = l := by
  induction l with
  | nil => rfl
  | cons a t ih =>
    rw [List.flatMap_cons, h a (by simp), ih (fun x hx => h x (List.mem_cons_of_mem _ hx))]
    rfl

theorem resolve_conflicts_fixed (r : List SpySignal)
    (hnd : (r.map (fun s => s.decl.name)).Nodup)
    (hs : sortedByKey (fun x => x.module_name) r) :
    resolve_conflicts r = r := by
  rw [resolve_conflicts_eq_sorted_map]
  have hmap : r.map (fun sig =>
      if 1 < (r.map (fun t => t.decl.name)).count sig.decl.name then renameReg sig
      else sig) = r := by
    have hcongr : ∀ sig ∈ r,
        (if 1 < (r.map (fun t => t.decl.name)).count sig.decl.name then renameReg sig
         else sig) = sig := by
      intro sig hsig
      have hge : 1 ≤ (r.map (fun t => t.decl.name)).count sig.decl.name :=
        List.one_le_count_iff.mpr (List.mem_map.mpr ⟨sig, hsig, rfl⟩)
      have hle : (r.map (fun t => t.decl.name)).count sig.decl.name ≤ 1 :=
        List.nodup_iff_count_le_one.mp hnd _
      have hone : (r.map (fun t => t.decl.name)).count sig.decl.name = 1 :=
        le_antisymm hle hge
      rw [hone]
      exact if_neg (lt_irrefl 1)
    rw [List.map_congr_left hcongr, List.map_id']
  rw [hmap]
  exact pySorted_eq_self _ r hs

theorem resolve_port_conflicts_fixed (r : List SpySignal)
    (hnd : (r.map (fun s => s.decl.name)).Nodup)
    (hs : sortedByKey (fun x => x.module_name) r)
    (hd : ∀ x ∈ r, 1 < countDots x.path) :
    resolve_port_conflicts r = r := by
  rw [resolve_port_conflicts_eq_sorted_flatMap]
  rw [firstKeys_eq_self _ hnd]
  have hflat : (r.map (fun s => s.decl.name)).flatMap
      (fun k => processGroup (groupOf r k)) =
      r.flatMap (fun s => processGroup (groupOf r s.decl.name)) := by
    rw [List.flatMap_map]
  rw [hflat, flatMap_singleton_id]
  · exact pySorted_eq_self _ r hs
  · intro s hsr
    have hone : (r.map (fun t => t.decl.name)).count s.decl.name = 1 := by
      refine le_antisymm (List.nodup_iff_count_le_one.mp hnd _) ?_
      exact List.one_le_count_iff.mpr (List.mem_map.mpr ⟨s, hsr, rfl⟩)
    rw [groupOf_eq_singleton r s hsr hone, processGroup_one, if_pos (hd s hsr)]

/-- Claim C8 (counterexample): the register resolver is not idempotent.  On
the flattened list of the registry where `top` instantiates `mq` (register
`a_b_s` at depth 2) next to two duplicated `b_s` leaves, the first pass
renames `b_s` under alias `a` to `a_b_s`, which collides with the untouched
unique `a_b_s`; the second pass therefore renames further records, so
applying the resolver to its own output changes it. -/
theorem resolve_conflicts_not_idempotent :
    get_all_registers 2 c8top "`PATH_TOP" c8mods = .ok c8flat ∧
    resolve_conflicts (resolve_conflicts c8flat) ≠ resolve_conflicts c8flat := by
  exact ⟨by decide, by decide⟩

/-- Claim C8 (amended): each conflict resolver is idempotent on outputs that
are actually conflict-free: whenever the first application leaves no
duplicate `declaration.name`, a second application of `resolve_conflicts`
(respectively `resolve_port_conflicts`) returns its input unchanged — no
record is renamed or dropped and the order is preserved.  (The duplicate-free
postcondition can fail, see the counterexample, and then a second pass does
rename further records.) -/
theorem resolvers_idempotent_when_unique (l lp : List SpySignal)
    (hreg : ((resolve_conflicts l).map (fun s => s.decl.name)).Nodup)
    (hport : ((resolve_port_conflicts lp).map (fun s => s.decl.name)).Nodup) :
    resolve_conflicts (resolve_conflicts l) = resolve_conflicts l ∧
    resolve_port_conflicts (resolve_port_conflicts lp) = resolve_port_conflicts lp := by
  constructor
  · exact resolve_conflicts_fixed _ hreg (resolve_conflicts_sorted l)
  · exact resolve_port_conflicts_fixed _ hport (resolve_port_conflicts_sorted lp)
      (resolve_port_conflicts_dots lp)

/-- Concrete instantiation of the amended C8 theorem on conflict-free
singleton lists. -/
theorem resolvers_idempotent_when_unique_witness :
    ((resolve_conflicts w8regs).map (fun s => s.decl.name)).Nodup ∧
    ((resolve_port_conflicts w8ports).map (fun s => s.decl.name)).Nodup ∧
    (resolve_conflicts (resolve_conflicts w8regs) = resolve_conflicts w8regs ∧
     resolve_port_conflicts (resolve_port_conflicts w8ports) =
       resolve_port_conflicts w8ports) :=
  ⟨by decide, by decide,
    resolvers_idempotent_when_unique w8regs w8ports (by decide) (by decide)⟩

/-! ## Level-by-level sorting equals one stable sort of the depth-first
emission -/

theorem garInsts_nil (f : ModuleInfo → String → Except FlatErr (List SpySignal))
    (module_infos : List ModuleInfo) (path : String) :
    garInsts f module_infos [] path = .ok [] := rfl

theorem garInsts_cons (f : ModuleInfo → String → Except FlatErr (List SpySignal))
    (module_infos : List ModuleInfo) (inst : String × String)
    (rest : List (String × String)) (path : String) :
    garInsts f module_infos (inst :: rest) path =
      match get_module_info inst.1 module_infos with
      | none => .error .noneModule
      | some cm =>
        match f cm (path ++ "." ++ inst.2) with
        | .error e => .error e
        | .ok sub =>
          match garInsts f module_infos rest path with
          | .error e => .error e
          | .ok tail => .ok (sub ++ tail) := rfl

theorem garInsts_filter_rel (select : ModuleInfo → List SignalDecl) (fuel : Nat)
    (IH : ∀ (m : ModuleInfo) (path : String) (module_infos : List ModuleInfo)
      (l₀ : List SpySignal),
      specDFSigs select fuel m path module_infos = .ok l₀ →
      flattenSigs select fuel m path module_infos =
        .ok (pySorted (fun s => s.module_name) l₀)) :
    ∀ (insts : List (String × String)) (path : String)
      (module_infos : List ModuleInfo) (r : List SpySignal),
      garInsts (fun cm p => specDFSigs select fuel cm p module_infos)
        module_infos insts path = .ok r →
      ∃ r', garInsts (fun cm p => flattenSigs select fuel cm p module_infos)
          module_infos insts path = .ok r' ∧
        ∀ s, r'.filter (fun x => x.module_name = s) =
          r.filter (fun x => x.module_name = s) := by
  intro insts
  induction insts with
  | nil =>
    intro path mods r hr
    rw [garInsts_nil] at hr
    refine ⟨[], garInsts_nil _ _ _, ?_⟩
    have hre : [] = r := by injection hr
    rw [← hre]
    intro s
    rfl
  | cons inst rest ih =>
    intro path mods r hr
    rw [garInsts_cons] at hr
    rw [garInsts_cons]
    cases hgi : get_module_info inst.1 mods with
    | none =>
      rw [hgi] at hr
      simp at hr
    | some cm =>
      rw [hgi] at hr
      simp only at hr ⊢
      cases hsub : specDFSigs select fuel cm (path ++ "." ++ inst.2) mods with
      | error e =>
        rw [hsub] at hr
        simp at hr
      | ok sub =>
        rw [hsub] at hr
        rw [IH cm (path ++ "." ++ inst.2) mods sub hsub]
        simp only at hr ⊢
        cases htail : garInsts (fun cm p => specDFSigs select fuel cm p mods)
            mods rest path with
        | error e =>
          rw [htail] at hr
          simp at hr
        | ok tail =>
          rw [htail] at hr
          simp only at hr
          have hre : sub ++ tail = r := by injection hr
          rcases ih path mods tail htail with ⟨tail', htail', hfil⟩
          rw [htail']
          refine ⟨pySorted (fun s => s.module_name) sub ++ tail', rfl, ?_⟩
          intro s
          rw [← hre, List.filter_append, List.filter_append, pySorted_filter, hfil s]

theorem flatten_eq_sorted_specDF (select : ModuleInfo → List SignalDecl) :
    ∀ (fuel : Nat) (m : ModuleInfo) (path : String)
      (module_infos : List ModuleInfo) (l₀ : List SpySignal),
      specDFSigs select fuel m path module_infos = .ok l₀ →
      flattenSigs select fuel m path module_infos =
        .ok (pySorted (fun s => s.module_name) l₀) := by
  intro fuel
  induction fuel with
  | zero =>
    intro m path mods l₀ h
    rw [specDFSigs_zero] at h
    simp at h
  | succ n ih =>
    intro m path mods l₀ h
    rw [specDFSigs_succ] at h
    rw [flattenSigs_succ]
    cases hdi : garInsts (fun cm p => specDFSigs select n cm p mods)
        mods m.instances path with
    | error e =>
      rw [hdi] at h
      simp at h
    | ok r =>
      rw [hdi] at h
      simp only at h
      have hl₀ : (select m).map
          (fun d => ⟨d, path ++ "." ++ d.name, m.module_name⟩) ++ r = l₀ := by
        injection h
      rcases garInsts_filter_rel select n ih m.instances path mods r hdi with
        ⟨r', hr', hfil⟩
      rw [hr']
      simp only
      refine congrArg Except.ok ?_
      rw [← hl₀]
      refine pySorted_congr _ _ _ ?_
      intro s
      rw [List.filter_append, List.filter_append, hfil s]

/-- Claim C7 (counterexample): for the resolved PORT list the tie order is
not the depth-first emission order.  On the design where `T` instantiates
`M` (output `a`, input `b`) twice, flattening and the depth-first emission
agree; all resolved records belong to module `M`; yet the resolver emits
the group of `a` (both instances, renamed) before the representative of
`b`, so `u1.b` — emitted before `u2.a` depth-first — comes after it in the
resolved list. -/
theorem resolved_ports_order_cex :
    get_all_ports 2 c7T "`PATH_TOP" c7mods = .ok c7flat ∧
    specDF_ports 2 c7T "`PATH_TOP" c7mods = .ok c7flat ∧
    (resolve_port_conflicts c7flat).map (fun s => s.module_name) = ["M", "M", "M"] ∧
    (resolve_port_conflicts c7flat).map (fun s => s.path) =
      ["`PATH_TOP.u1.a", "`PATH_TOP.u2.a", "`PATH_TOP.u1.b"] ∧
    c7flat.map (fun s => s.path) =
      ["`PATH_TOP.u1.a", "`PATH_TOP.u1.b", "`PATH_TOP.u2.a", "`PATH_TOP.u2.b"] := by
  exact ⟨by decide, by decide, by decide, by decide, by decide⟩

/-- Claim C7 (amended): the resolved REGISTER list is sorted by owner module
and, within one owner module, keeps the depth-first emission order: its
per-module subsequences are exactly the per-module subsequences of the
unsorted depth-first emission, transformed record-wise by the rename step —
so sorting at every recursion level plus the resolver's final sort is
equivalent to the spec's single stable sort after full traversal.  The
resolved PORT list is sorted by owner module as well, but its tie order
follows the name-group order of the resolver, not the depth-first order
(see the counterexample). -/
theorem resolved_order_amended (fuel : Nat) (m : ModuleInfo) (path : String)
    (module_infos : List ModuleInfo) (l l₀ : List SpySignal)
    (h1 : get_all_registers fuel m path module_infos = .ok l)
    (h2 : specDF_registers fuel m path module_infos = .ok l₀) :
    sortedByKey (fun x => x.module_name) (resolve_conflicts l) ∧
    (∀ s, (resolve_conflicts l).filter (fun x => x.module_name = s) =
      (l₀.filter (fun x => x.module_name = s)).map (fun sig =>
        if 1 < (l₀.map (fun t => t.decl.name)).count sig.decl.name then renameReg sig
        else sig)) ∧
    (∀ sigs : List SpySignal,
      sortedByKey (fun x => x.module_name) (resolve_port_conflicts sigs)) := by
  unfold get_all_registers at h1
  unfold specDF_registers at h2
  have hflat := flatten_eq_sorted_specDF (fun mm => mm.regs_matches) fuel m path
    module_infos l₀ h2
  rw [h1] at hflat
  have hl : l = pySorted (fun s => s.module_name) l₀ := by injection hflat
  have hcount : ∀ x, (l.map (fun t => t.decl.name)).count x =
      (l₀.map (fun t => t.decl.name)).count x := by
    intro x
    have hperm : (l.map (fun t => t.decl.name)).Perm
        (l₀.map (fun t => t.decl.name)) := by
      rw [hl]
      exact (pySorted_perm _ l₀).map _
    exact hperm.count_eq x
  refine ⟨resolve_conflicts_sorted l, ?_, fun sigs => resolve_port_conflicts_sorted sigs⟩
  intro s
  rw [resolve_conflicts_eq_sorted_map, pySorted_filter, List.filter_map]
  have hfc : l.filter ((fun x => decide (x.module_name = s)) ∘ (fun sig =>
      if 1 < (l.map (fun t => t.decl.name)).count sig.decl.name then renameReg sig
      else sig)) = l.filter (fun x => decide (x.module_name = s)) := by
    refine List.filter_congr ?_
    intro sig _
    show decide ((if 1 < (l.map (fun t => t.decl.name)).count sig.decl.name
        then renameReg sig else sig).module_name = s) = decide (sig.module_name = s)
    by_cases hc : 1 < (l.map (fun t => t.decl.name)).count sig.decl.name
    · rw [if_pos hc]
      rfl
    · rw [if_neg hc]
  rw [hfc]
  have hfil2 : l.filter (fun x => decide (x.module_name = s)) =
      l₀.filter (fun x => decide (x.module_name = s)) := by
    rw [hl]
    exact pySorted_filter (fun x => x.module_name) l₀ s
  rw [hfil2]
  refine List.map_congr_left ?_
  intro sig _
  rw [hcount sig.decl.name]

/-- Concrete instantiation of the amended C7 theorem on the three-register
design of the C1 counterexample. -/
theorem resolved_order_amended_witness :
    get_all_registers 2 c1top "`PATH_TOP" c1mods = .ok c1flat ∧
    specDF_registers 2 c1top "`PATH_TOP" c1mods = .ok c1df ∧
    (sortedByKey (fun x => x.module_name) (resolve_conflicts c1flat) ∧
     (∀ s, (resolve_conflicts c1flat).filter (fun x => x.module_name = s) =
       (c1df.filter (fun x => x.module_name = s)).map (fun sig =>
         if 1 < (c1df.map (fun t => t.decl.name)).count sig.decl.name
         then renameReg sig else sig)) ∧
     (∀ sigs : List SpySignal,
       sortedByKey (fun x => x.module_name) (resolve_port_conflicts sigs))) :=
  ⟨by decide, by decide,
    resolved_order_amended 2 c1top "`PATH_TOP" c1mods c1flat c1df
      (by decide) (by decide)⟩

/-! ## Instance discovery stays inside the supplied name list -/

theorem tryNamesAt_mem :
    ∀ (names : List String) (s : List Char) (n al : String) (r : List Char),
      tryNamesAt names s = some (n, al, r) → n ∈ names := by
  intro names
  induction names with
  | nil =>
    intro s n al r h
    simp [tryNamesAt] at h
  | cons m ms ih =>
    intro s n al r h
    rw [tryNamesAt] at h
    cases hone : tryOneName m s with
    | some x =>
      rw [hone] at h
      simp only at h
      have hmn : m = n := congrArg (fun y => y.1) (Option.some.inj h)
      rw [← hmn]
      simp
    | none =>
      rw [hone] at h
      simp only at h
      exact List.mem_cons_of_mem _ (ih s n al r h)

theorem scanInst_mem :
    ∀ (fuel : Nat) (names : List String) (prevWord : Bool) (s : List Char)
      (e : String × String), e ∈ scanInst fuel names prevWord s → e.1 ∈ names := by
  intro fuel
  induction fuel with
  | zero =>
    intro names pw s e h
    simp [scanInst] at h
  | succ n ih =>
    intro names pw s e h
    cases s with
    | nil => simp [scanInst] at h
    | cons c rest =>
      rw [scanInst] at h
      cases pw with
      | true =>
        simp only [if_pos rfl] at h
        exact ih names (isWordChar c) rest e h
      | false =>
        simp only [if_neg (Bool.false_ne_true)] at h
        cases hatt : tryNamesAt names (c :: rest) with
        | none =>
          rw [hatt] at h
          simp only at h
          exact ih names (isWordChar c) rest e h
        | some x =>
          obtain ⟨n1, al1, r1⟩ := x
          rw [hatt] at h
          simp only at h
          rcases List.mem_cons.mp h with he | he
          · rw [he]
            exact tryNamesAt_mem names (c :: rest) n1 al1 r1 hatt
          · exact ih names false r1 e he

theorem flatten_never_none (select : ModuleInfo → List SignalDecl)
    (module_infos : List ModuleInfo)
    (hclosed : ∀ m ∈ module_infos, ∀ e ∈ m.instances,
      e.1 ∈ module_infos.map (fun x => x.module_name)) :
    ∀ (fuel : Nat) (m : ModuleInfo) (path : String), m ∈ module_infos →
      flattenSigs select fuel m path module_infos ≠ .error .noneModule := by
  intro fuel
  induction fuel with
  | zero =>
    intro m path _
    rw [flattenSigs_zero]
    simp
  | succ n ih =>
    intro m path hm
    rw [flattenSigs_succ]
    have haux : ∀ (insts : List (String × String)),
        (∀ e ∈ insts, e.1 ∈ module_infos.map (fun x => x.module_name)) →
        ∀ path', garInsts (fun cm p => flattenSigs select n cm p module_infos)
          module_infos insts path' ≠ .error .noneModule := by
      intro insts
      induction insts with
      | nil =>
        intro _ path'
        rw [garInsts_nil]
        simp
      | cons inst rest ihi =>
        intro hins path'
        rw [garInsts_cons]
        have hmem : inst.1 ∈ module_infos.map (fun x => x.module_name) :=
          hins inst (by simp)
        rcases List.mem_map.mp hmem with ⟨cm0, hcm0, hname⟩
        have hsome : (module_infos.find? (fun mm => mm.module_name = inst.1)).isSome := by
          rw [List.find?_isSome]
          exact ⟨cm0, hcm0, by simp [hname]⟩
        rcases hf : module_infos.find? (fun mm => mm.module_name = inst.1) with _ | cm
        · rw [hf] at hsome
          simp at hsome
        · have hgmi : get_module_info inst.1 module_infos = some cm := hf
          rw [hgmi]
          simp only
          have hcmmem : cm ∈ module_infos := List.mem_of_find?_eq_some hf
          cases hsub : flattenSigs select n cm (path' ++ "." ++ inst.2) module_infos with
          | error e =>
            have hne := ih cm (path' ++ "." ++ inst.2) hcmmem
            rw [hsub] at hne
            cases e with
            | outOfFuel => simp
            | noneModule => exact absurd rfl hne
          | ok sub =>
            simp only
            cases htail : garInsts (fun cm p => flattenSigs select n cm p module_infos)
                module_infos rest path' with
            | error e2 =>
              have hne := ihi (fun e he => hins e (List.mem_cons_of_mem _ he)) path'
              rw [htail] at hne
              cases e2 with
              | outOfFuel => simp
              | noneModule => exact absurd rfl hne
            | ok tail => simp
    cases hgar : garInsts (fun cm p => flattenSigs select n cm p module_infos)
        module_infos m.instances path with
    | error e =>
      have hne := haux m.instances (hclosed m hm) path
      rw [hgar] at hne
      cases e with
      | outOfFuel => simp
      | noneModule => exact absurd rfl hne
    | ok rest => simp

/-- Claim C9: every `(child_module_name, instance_alias)` pair appended by
the instance finder has its child name drawn from the `module_names` list it
was given; consequently, for a registry whose instance edges all target
registered names — which is what the pipeline guarantees by scanning with
exactly the registry's name list — `get_module_info` never returns `None`
during flattening: the unresolved-instance failure is unreachable from the
normal pipeline, at every recursion depth, for registers and for ports. -/
theorem find_instances_closed_lookup :
    (∀ (module_names : List String) (body : String) (e : String × String),
      e ∈ find_instances module_names body → e.1 ∈ module_names) ∧
    (∀ (module_infos : List ModuleInfo),
      (∀ m ∈ module_infos, ∀ e ∈ m.instances,
        e.1 ∈ module_infos.map (fun x => x.module_name)) →
      ∀ (fuel : Nat) (m : ModuleInfo) (path : String), m ∈ module_infos →
        get_all_registers fuel m path module_infos ≠ .error .noneModule ∧
        get_all_ports fuel m path module_infos ≠ .error .noneModule) := by
  constructor
  · intro names body e he
    unfold find_instances at he
    by_cases hne : names.isEmpty
    · rw [if_pos hne] at he
      cases he
    · rw [if_neg hne] at he
      exact scanInst_mem _ _ _ _ _ he
  · intro mods hclosed fuel m path hm
    exact ⟨flatten_never_none _ mods hclosed fuel m path hm,
           flatten_never_none _ mods hclosed fuel m path hm⟩

/-- Concrete instantiation of C9: the scanner finds `B #(.W(W)) u1 (...)` in
a module body, the found child is in the supplied name list, and flattening
the corresponding registry never hits the unresolved-instance case. -/
theorem find_instances_closed_lookup_witness :
    ("B", "u1") ∈ find_instances ["A", "B"] w9body ∧
    "B" ∈ ["A", "B"] ∧
    (∀ m ∈ w9mods, ∀ e ∈ m.instances, e.1 ∈ w9mods.map (fun x => x.module_name)) ∧
    get_all_registers 2 w9A "`PATH_TOP" w9mods ≠ .error .noneModule := by
  refine ⟨by decide, ?_, by decide, ?_⟩
  · exact find_instances_closed_lookup.1 ["A", "B"] w9body ("B", "u1") (by decide)
  · exact (find_instances_closed_lookup.2 w9mods (by decide) 2 w9A "`PATH_TOP"
      (by decide)).1
